import Mathlib

/-!
Verification of the KilterBoard genetic route generator against its
specification.  The definitions below are a shallow embedding of the
Python sources:

* option2/parsing.py              (parse_difficulty and the two grade scales)
* option2/route_representation.py (Hold, Route and the route metrics)
* Genetic algorithm concept/route_generator.py (GeneticRouteGenerator)

Conventions of the embedding:

* Python floats are modelled by ℚ wherever every value that can arise is a
  finite decimal (hold coordinates, grade values, style parameters), and by
  ℝ where a square root genuinely appears (fitness, route metrics).
* Comparisons of a Euclidean distance against a constant, such as
  0.05 < dist < 0.3, are translated to the equivalent comparisons of the
  squared distance against the squared constants (sqrt is monotone on
  nonnegative arguments), which keeps those guards decidable.
* Each call to the random module is an explicit parameter: random.choice
  over a nonempty list is selection of index r % length for an arbitrary
  natural r, and random.randint lo hi is modelled by randint below, which
  returns none exactly when Python would raise ValueError (empty range).
* Fallible code (exceptions propagating to the caller) returns Option.
-/

/-- Hold from route_representation.py: an immutable point on the board. -/
structure Hold where
  id : ℕ
  x : ℚ
  y : ℚ
  hold_type : String
  size : ℚ
deriving DecidableEq, Repr

instance : Inhabited Hold := ⟨⟨0, 0, 0, "generic", 0⟩⟩

/-- Board: the dictionary self.holds of GeneticRouteGenerator, kept as its
list of values in insertion order (Python dict iteration order). -/
structure Board where
  holds : List Hold
deriving DecidableEq, Repr

/-- Dictionary access self.holds[i].  In the code every accessed id exists in
the board; absent ids here give the default hold. -/
def getHold (b : Board) (i : ℕ) : Hold :=
  (b.holds.find? (fun h => h.id == i)).getD default

/-- Ids present in the board (the dictionary keys). -/
def boardIds (b : Board) : List ℕ :=
  b.holds.map (·.id)

/-- Style parameter record produced by parse_style in parsing.py. -/
structure StyleParams where
  hold_size_preference : ℚ
  avg_move_distance : ℚ
  compression_level : ℚ
  crimpy_level : ℚ
  footwork_technicality : ℚ
  dynamic_level : ℚ
deriving DecidableEq, Repr

/-- Squared Euclidean distance between two holds, used for the distance
guards of the generator (see the convention note above). -/
def sqDist (a b : Hold) : ℚ :=
  (a.x - b.x) ^ 2 + (a.y - b.y) ^ 2

/-! Difficulty parsing (option2/parsing.py). -/

/-- V_SCALE table from parsing.py. -/
def V_SCALE : List (String × ℚ) :=
  [("V0", 1/20), ("V1", 1/10), ("V2", 3/20),
   ("V3", 1/4), ("V4", 7/20), ("V5", 9/20),
   ("V6", 11/20), ("V7", 3/5), ("V8", 7/10),
   ("V9", 39/50), ("V10", 17/20), ("V11", 23/25),
   ("V12", 24/25), ("V13", 49/50), ("V14", 1)]

/-- FB_SCALE table from parsing.py. -/
def FB_SCALE : List (String × ℚ) :=
  [("5A", 1/10), ("5B", 3/20), ("5C", 1/5),
   ("6A", 3/10), ("6A+", 7/20),
   ("6B", 2/5), ("6B+", 9/20),
   ("6C", 1/2), ("6C+", 11/20),
   ("7A", 3/5), ("7A+", 13/20),
   ("7B", 7/10), ("7B+", 3/4),
   ("7C", 4/5), ("7C+", 17/20),
   ("8A", 9/10), ("8A+", 93/100),
   ("8B", 24/25), ("8B+", 49/50),
   ("8C", 1)]

/-- Uppercase every character (Python str.upper on the ascii inputs used). -/
def upperL (s : List Char) : List Char := s.map Char.toUpper

/-- Strip leading and trailing whitespace (Python str.strip). -/
def trimL (s : List Char) : List Char :=
  ((s.dropWhile Char.isWhitespace).reverse.dropWhile Char.isWhitespace).reverse

/-- Whether pat occurs at the head of s. -/
def matchesAt : List Char → List Char → Bool
  | _, [] => true
  | [], _ :: _ => false
  | c :: s, p :: ps => c == p && matchesAt s ps

/-- Substring containment, Python pat in s (for nonempty pat). -/
def containsSub : List Char → List Char → Bool
  | [], pat => pat.isEmpty
  | c :: t, pat => matchesAt (c :: t) pat || containsSub t pat

/-- Helper for replAll: the fuel argument (initially the length of the
scanned list, which every step shortens) makes the recursion structural so
that the definition reduces inside the kernel. -/
def replAllAux : ℕ → List Char → List Char → List Char
  | 0, s, _ => s
  | _, [], _ => []
  | fuel + 1, c :: t, pat =>
    if pat.isEmpty then c :: t
    else if matchesAt (c :: t) pat then replAllAux fuel (t.drop (pat.length - 1)) pat
    else c :: replAllAux fuel t pat

/-- Python s.replace(pat, "") for a nonempty pattern: delete every
non-overlapping occurrence, scanning left to right. -/
def replAll (s pat : List Char) : List Char :=
  replAllAux s.length s pat

/-- Separator characters of the range regex character class in parsing.py:
an ascii hyphen or an en dash. -/
def isSep (c : Char) : Bool := c == '-' || c == '–'

/-- Index of the separator chosen by the greedy regex (.+)[-–](.+): the last
separator position leaving at least one character on each side. -/
def lastSep (s : List Char) : Option ℕ :=
  (List.range s.length).foldl
    (fun acc i =>
      if 1 ≤ i ∧ i + 1 < s.length ∧ isSep (s.getD i ' ') then some i else acc)
    none

/-- Python builtin min on two rationals, written so it reduces in the kernel. -/
def pymin (a b : ℚ) : ℚ := if a ≤ b then a else b

/-- Python builtin max on two rationals, written so it reduces in the kernel. -/
def pymax (a b : ℚ) : ℚ := if b ≤ a then a else b

/-- Soft and hard adjustment followed by the clamp to the unit interval,
as applied in the two scale branches of parse_difficulty. -/
def scaleAdj (soft hard : Bool) (base : ℚ) : ℚ :=
  let b1 := if soft then base - 3/100 else base
  let b2 := if hard then b1 + 3/100 else b1
  pymax 0 (pymin 1 b2)

/-- Whether a character list starts with the letter V. -/
def startsV : List Char → Bool
  | 'V' :: _ => true
  | _ => false

/-- One side of a grade range: the loop body of the range branch of
parse_difficulty (V lookup when the text starts with V, FB lookup else). -/
def rangeVal (g : List Char) : Option ℚ :=
  if startsV g && (List.lookup (String.mk g) V_SCALE).isSome then
    List.lookup (String.mk g) V_SCALE
  else
    List.lookup (String.mk g) FB_SCALE

/-- The V-scale detection of parse_difficulty: the regex V(\d+) anchored at
the start of the text, looked up in V_SCALE. -/
def vDetect (text : List Char) : Option ℚ :=
  match text with
  | 'V' :: rest =>
    let ds := rest.takeWhile Char.isDigit
    if ds.isEmpty then none
    else List.lookup (String.mk ('V' :: ds)) V_SCALE
  | _ => none

/-- parse_difficulty from option2/parsing.py. -/
def parse_difficulty (diff_input : String) : ℚ :=
  let text0 := upperL (trimL diff_input.toList)
  let soft := containsSub text0 "SOFT".toList
  let hard := containsSub text0 "HARD".toList
  let text := trimL (replAll (replAll text0 "SOFT".toList) "HARD".toList)
  match vDetect text with
  | some base => scaleAdj soft hard base
  | none =>
    match List.lookup (String.mk text) FB_SCALE with
    | some base => scaleAdj soft hard base
    | none =>
      match lastSep text with
      | some i =>
        let g1 := trimL (text.take i)
        let g2 := trimL (text.drop (i + 1))
        let vals := [g1, g2].filterMap rangeVal
        if vals.isEmpty then 3/20 else vals.sum / vals.length
      | none => 3/20

/-! The genetic route generator
(Genetic algorithm concept/route_generator.py). -/

/-- Python random.randint lo hi (both bounds inclusive): some value of the
support for an arbitrary draw r, and none exactly when Python raises
ValueError because the range is empty. -/
def randint (lo hi r : ℕ) : Option ℕ :=
  if lo ≤ hi then some (lo + r % (hi - lo + 1)) else none

/-- Python random.choice over a nonempty list: the element at an arbitrary
index r % length. -/
def pyChoice (l : List ℕ) (r : ℕ) : ℕ :=
  l.getD (r % l.length) 0

/-- Hold ids of the bottom band, the list bottom_holds of
_create_random_route: ids of holds with y below 0.2. -/
def bottomHolds (b : Board) : List ℕ :=
  (b.holds.filter (fun h => h.y < 1/5)).map (·.id)

/-- Candidate next holds at one extension step of _create_random_route:
unused, not more than 0.05 below the current hold, and at Euclidean
distance strictly between 0.05 and 0.3 (stated on the squared distance). -/
def stepCands (b : Board) (route : List ℕ) (current : ℕ) : List ℕ :=
  let cur := getHold b current
  (b.holds.filter (fun h =>
    decide (h.id ∉ route) &&
    (!decide (h.y < cur.y - 1/20) &&
      decide (1/400 < sqDist h cur ∧ sqDist h cur < 9/100)))).map (·.id)

/-- The extension loop of _create_random_route: up to num_moves steps, each
appending a random candidate, stopping early when none qualifies. -/
def buildSteps (b : Board) (rs : ℕ → ℕ) : ℕ → ℕ → List ℕ → ℕ → List ℕ
  | 0, _, route, _ => route
  | fuel + 1, step, route, current =>
    let cands := stepCands b route current
    if cands.isEmpty then route
    else
      let nxt := pyChoice cands (rs step)
      buildSteps b rs fuel (step + 1) (route ++ [nxt]) nxt

/-- _create_random_route: start from a random bottom-band hold and extend;
none models the IndexError of random.choice on an empty bottom band, which
propagates to the caller. -/
def create_random_route (b : Board) (num_moves : ℕ) (r0 : ℕ) (rs : ℕ → ℕ) :
    Option (List ℕ) :=
  let bottom := bottomHolds b
  if bottom.isEmpty then none
  else
    let start := pyChoice bottom r0
    some (buildSteps b rs num_moves 0 [start] start)

/-- The append loop of _crossover: add ids from parent2 not already in the
child, stopping once the child reaches the cap max(len p1, len p2). -/
def crossExtend (cap : ℕ) : List ℕ → List ℕ → List ℕ
  | child, [] => child
  | child, h :: t =>
    if h ∈ child then crossExtend cap child t
    else if cap ≤ (child ++ [h]).length then child ++ [h]
    else crossExtend cap (child ++ [h]) t

/-- _crossover: single-point crossover; the cut point models
random.randint 1 (min len - 1) for an arbitrary draw r. -/
def crossover (parent1 parent2 : List ℕ) (r : ℕ) : List ℕ :=
  if parent1.length < 2 ∨ parent2.length < 2 then parent1
  else
    let point := 1 + r % (min parent1.length parent2.length - 1)
    crossExtend (max parent1.length parent2.length) (parent1.take point) parent2

/-- The four mutation operations of _mutate. -/
inductive MutKind where
  | replace
  | insert
  | remove
  | swap
deriving DecidableEq, Repr

/-- Candidate replacement holds in the replace branch of _mutate: unused,
not more than 0.05 below the previous hold and within distance 0.3 of it
(stated on the squared distance). -/
def replaceCands (b : Board) (route : List ℕ) (idx : ℕ) : List ℕ :=
  let prev := getHold b (route.getD (idx - 1) 0)
  (b.holds.filter (fun h =>
    decide (h.id ∉ route) &&
    (decide (prev.y - 1/20 ≤ h.y) &&
      decide (sqDist h prev < 9/100)))).map (·.id)

/-- Candidate insertion holds in the insert branch of _mutate: unused and
within 0.15 of the midpoint of the surrounding holds on both axes. -/
def insertCands (b : Board) (route : List ℕ) (idx : ℕ) : List ℕ :=
  let prev := getHold b (route.getD (idx - 1) 0)
  let nxt := getHold b (route.getD idx 0)
  let midX := (prev.x + nxt.x) / 2
  let midY := (prev.y + nxt.y) / 2
  (b.holds.filter (fun h =>
    decide (h.id ∉ route) &&
    (decide (|h.x - midX| < 3/20) &&
      decide (|h.y - midY| < 3/20)))).map (·.id)

/-- Adjacent transposition of the swap branch of _mutate: the Python tuple
assignment route[idx], route[idx+1] = route[idx+1], route[idx]. -/
def swapAdj (l : List ℕ) (idx : ℕ) : List ℕ :=
  (l.set idx (l.getD (idx + 1) 0)).set (idx + 1) (l.getD idx 0)

/-- _mutate: one operation chosen per invocation (the random.choice over the
four names is the kind argument), with r1 feeding the randint index draw
and r2 the random.choice over candidates.  The target_moves argument is a
Python int, hence ℤ.  A none result models the ValueError of
random.randint on an empty range propagating to the caller. -/
def mutate (b : Board) (route : List ℕ) (target_moves : ℤ) (kind : MutKind)
    (r1 r2 : ℕ) : Option (List ℕ) :=
  match kind with
  | .replace =>
    if 2 < route.length then
      match randint 1 (route.length - 1) r1 with
      | none => none
      | some idx =>
        let cands := replaceCands b route idx
        if cands.isEmpty then some route
        else some (route.set idx (pyChoice cands r2))
    else some route
  | .insert =>
    if (route.length : ℤ) < target_moves + 3 then
      match randint 1 (route.length - 1) r1 with
      | none => none
      | some idx =>
        let cands := insertCands b route idx
        if cands.isEmpty then some route
        else some (route.insertIdx idx (pyChoice cands r2))
    else some route
  | .remove =>
    if 3 < route.length then
      match randint 1 (route.length - 2) r1 with
      | none => none
      | some idx => some (route.eraseIdx idx)
    else some route
  | .swap =>
    if 3 < route.length then
      match randint 1 (route.length - 2) r1 with
      | none => none
      | some idx => some (swapAdj route idx)
    else some route

/-- _moves_from_difficulty: int(4 + diff * 30), Python int() truncating
toward zero. -/
def moves_from_difficulty (diff : ℚ) : ℤ :=
  if 0 ≤ 4 + diff * 30 then ⌊4 + diff * 30⌋ else ⌈4 + diff * 30⌉

/-- A small concrete board used in the checks below: a 3 x 3 grid with
spacing 1/5 in both axes, so adjacent and diagonal holds are within the
reach window of the constructor. -/
def bd3 : Board :=
  ⟨[⟨0, 0, 0, "generic", 1/2⟩, ⟨1, 1/5, 0, "generic", 1/2⟩, ⟨2, 2/5, 0, "generic", 1/2⟩,
    ⟨3, 0, 1/5, "generic", 1/2⟩, ⟨4, 1/5, 1/5, "generic", 1/2⟩, ⟨5, 2/5, 1/5, "generic", 1/2⟩,
    ⟨6, 0, 2/5, "generic", 1/2⟩, ⟨7, 1/5, 2/5, "generic", 1/2⟩, ⟨8, 2/5, 2/5, "generic", 1/2⟩]⟩

/-! The fitness evaluator and the evolution driver. -/

/-- Euclidean distance between two holds, as a real number. -/
noncomputable def euclidR (h1 h2 : Hold) : ℝ :=
  Real.sqrt (((h1.x - h2.x) ^ 2 + (h1.y - h2.y) ^ 2 : ℚ) : ℝ)

open Classical in
/-- _fitness from route_generator.py, term by term.  Real-valued because the
distance terms involve square roots. -/
noncomputable def fitness (b : Board) (route : List ℕ) (style : StyleParams)
    (difficulty : ℚ) : ℝ :=
  if route.length < 3 then -1000
  else
    let ys : List ℚ := route.map (fun h => (getHold b h).y)
    let upward : ℚ := ((ys.zip ys.tail).map (fun p => p.2 - p.1)).sum
    let s1 : ℝ := (upward : ℝ) * 100
    let distances : List ℝ :=
      (route.zip route.tail).map (fun p => euclidR (getHold b p.1) (getHold b p.2))
    let s2 : ℝ :=
      if distances.isEmpty then s1
      else
        let target : ℝ := ((1/10 + style.avg_move_distance * (1/10) : ℚ) : ℝ)
        let variance : ℝ :=
          ((distances.map (fun d => (d - target) ^ 2)).sum) / distances.length
        s1 - variance * 500
    let sizes : List ℚ := route.map (fun h => (getHold b h).size)
    let avgSize : ℚ := sizes.sum / sizes.length
    let s3 : ℝ :=
      if 7/10 < style.crimpy_level then s2 + ((1/2 - avgSize : ℚ) : ℝ) * 50
      else if 7/10 < style.hold_size_preference then s2 + ((avgSize - 1/2 : ℚ) : ℝ) * 50
      else s2
    let targetLength : ℚ := 4 + difficulty * 6
    let s4 : ℝ := s3 - ((|(route.length : ℚ) - targetLength| : ℚ) : ℝ) * 10
    let yDec : ℕ := ((ys.zip ys.tail).filter (fun p => decide (p.2 < p.1))).length
    let s5 : ℝ := s4 - (yDec : ℝ) * 20
    if 7/10 < style.dynamic_level then
      s5 + (((distances.filter (fun d => decide ((3/20 : ℝ) < d))).length : ℝ) * 10)
    else s5

open Classical in
/-- Stable insertion into a list already sorted by descending fitness: the
inserted element goes before the first strictly smaller score and after
earlier elements with an equal score, which is exactly where Python's
stable sort with reverse=True places it. -/
noncomputable def insertDesc (x : List ℕ × ℝ) : List (List ℕ × ℝ) → List (List ℕ × ℝ)
  | [] => [x]
  | y :: ys => if y.2 ≤ x.2 then x :: y :: ys else y :: insertDesc x ys

/-- fitness_scores.sort(key, reverse=True): stable descending sort. -/
noncomputable def sortDesc (l : List (List ℕ × ℝ)) : List (List ℕ × ℝ) :=
  l.foldr insertDesc []

open Classical in
/-- One EVALUATING step of generate_route: score the population, sort it
descending, and update the tracked best pair when and only when the top
score strictly exceeds it.  The state is (best_route, best_fitness) with
bottom standing for the initial float minus infinity.  The population of
the code always has population_size members; the empty branch is kept as
the identity. -/
noncomputable def evalStep (b : Board) (style : StyleParams) (difficulty : ℚ)
    (st : Option (List ℕ) × WithBot ℝ) (pop : List (List ℕ)) :
    Option (List ℕ) × WithBot ℝ :=
  match sortDesc (pop.map (fun r => (r, fitness b r style difficulty))) with
  | [] => st
  | top :: _ =>
    if st.2 < (top.2 : WithBot ℝ) then (some top.1, (top.2 : WithBot ℝ)) else st

/-- The generational loop of generate_route, abstracted over the sequence of
populations it evaluates: the first is the seeded population and each later
one is the population bred (elites, tournament selection, crossover and
probabilistic mutation) from its predecessor, all of whose random draws are
absorbed into the list itself. -/
noncomputable def runGens (b : Board) (style : StyleParams) (difficulty : ℚ)
    (pops : List (List (List ℕ))) : Option (List ℕ) × WithBot ℝ :=
  pops.foldl (evalStep b style difficulty) (none, ⊥)

/-- population_size of GeneticRouteGenerator. -/
def population_size : ℕ := 50

/-- elite_size of GeneticRouteGenerator. -/
def elite_size : ℕ := 5

/-- generations of GeneticRouteGenerator. -/
def generations : ℕ := 100

/-- Seeding loop of generate_route: population_size calls of
_create_random_route, where rands i supplies the random draws of the i-th
call; the first failure (empty bottom band) aborts the whole run, as the
IndexError would. -/
def seedAux (b : Board) (num_moves : ℕ) (rands : ℕ → ℕ × (ℕ → ℕ)) :
    ℕ → ℕ → Option (List (List ℕ))
  | 0, _ => some []
  | n + 1, i =>
    match create_random_route b num_moves (rands i).1 (rands i).2 with
    | none => none
    | some r =>
      match seedAux b num_moves rands n (i + 1) with
      | none => none
      | some rest => some (r :: rest)

/-- The initial population of generate_route. -/
def seedPopulation (b : Board) (num_moves : ℕ) (rands : ℕ → ℕ × (ℕ → ℕ)) :
    Option (List (List ℕ)) :=
  seedAux b num_moves rands population_size 0

/-- Route from route_representation.py. -/
structure Route where
  holds : List ℕ
  start_holds : List ℕ := []
  top_hold : Option ℕ := none
  hold_objects : Board := ⟨[]⟩
deriving DecidableEq, Repr

/-- _to_route_object: wrap the best sequence, designating the first two ids
(or the whole shorter sequence) as start holds and the last id as top. -/
def to_route_object (b : Board) (hold_sequence : List ℕ) : Route :=
  { holds := hold_sequence
    start_holds :=
      if 2 ≤ hold_sequence.length then hold_sequence.take 2 else hold_sequence
    top_hold := hold_sequence.getLast?
    hold_objects := b }

/-- generate_route: seed, run the generational loop, and convert the tracked
best-ever sequence into the Route entity.  The bredPops argument carries the
populations built by the SELECTING-BREEDING phase, one per generation after
the first (see runGens); none models the seeding IndexError propagating to
the caller. -/
noncomputable def generate_route (b : Board) (difficulty : ℚ) (style : StyleParams)
    (seedRands : ℕ → ℕ × (ℕ → ℕ)) (bredPops : List (List (List ℕ))) : Option Route :=
  let target_moves := (moves_from_difficulty difficulty).toNat
  match seedPopulation b target_moves seedRands with
  | none => none
  | some pop0 =>
    let final := runGens b style difficulty (pop0 :: bredPops)
    final.1.map (to_route_object b)

/-! Route metrics (route_representation.py). -/

/-- Route.total_move_distance: sum of consecutive Euclidean distances; zero
when the hold_objects mapping is unpopulated or fewer than two holds. -/
noncomputable def total_move_distance (r : Route) : ℝ :=
  if r.hold_objects.holds.isEmpty ∨ r.holds.length < 2 then 0
  else
    ((r.holds.zip r.holds.tail).map (fun p =>
      euclidR (getHold r.hold_objects p.1) (getHold r.hold_objects p.2))).sum

/-- Route.avg_move_distance: total distance over the number of moves. -/
noncomputable def avg_move_distance (r : Route) : ℝ :=
  if r.holds.length < 2 then 0
  else total_move_distance r / ((r.holds.length - 1 : ℕ) : ℝ)

/-- The applicability guard of each mutation operation of _mutate. -/
def mutGuard (k : MutKind) (route : List ℕ) (target_moves : ℤ) : Bool :=
  match k with
  | .replace => decide (2 < route.length)
  | .insert => decide ((route.length : ℤ) < target_moves + 3)
  | .remove => decide (3 < route.length)
  | .swap => decide (3 < route.length)

/-- Candidate sequences reachable inside the population of generate_route:
seeded by _create_random_route, and closed under _crossover between
reachable parents and successful _mutate (elitism copies members
unchanged). -/
inductive Reachable (b : Board) : List ℕ → Prop where
  | seed (n r0 : ℕ) (rs : ℕ → ℕ) (route : List ℕ)
      (h : create_random_route b n r0 rs = some route) : Reachable b route
  | cross (p1 p2 : List ℕ) (r : ℕ) (h1 : Reachable b p1) (h2 : Reachable b p2) :
      Reachable b (crossover p1 p2 r)
  | mutStep (route out : List ℕ) (t : ℤ) (k : MutKind) (r1 r2 : ℕ)
      (h : Reachable b route) (hm : mutate b route t k r1 r2 = some out) :
      Reachable b out

/-- Concrete two-hold board at coordinates (0,0) and (0,1) for the route
metric check. -/
def bd2 : Board :=
  ⟨[⟨0, 0, 0, "generic", 1/2⟩, ⟨1, 0, 1, "generic", 1/2⟩]⟩

/-- Concrete two-hold route over bd2. -/
def routeC9 : Route :=
  { holds := [0, 1], start_holds := [0, 1], top_hold := some 1, hold_objects := bd2 }

/-- Concrete board whose single hold lies above the bottom band. -/
def bdNB : Board :=
  ⟨[⟨0, 0, 1/2, "generic", 1/2⟩]⟩

/-- Concrete style parameter record (the parse_style defaults). -/
def styleC : StyleParams :=
  ⟨1/2, 1/2, 0, 0, 1/2, 1/2⟩

/-! Sanity checks of the embedding on concrete inputs. -/

unseal Rat.add Rat.sub Rat.mul Rat.inv in
example : parse_difficulty "6A-6C" = 2/5 := by decide

unseal Rat.add Rat.sub Rat.mul Rat.inv in
example : bottomHolds bd3 = [0, 1, 2] := by decide

unseal Rat.add Rat.sub Rat.mul Rat.inv in
example : create_random_route bd3 2 0 (fun _ => 0) = some [0, 1, 2] := by decide

example : crossover [0, 1, 2] [3, 4] 0 = [0, 3, 4] := by decide

/-! Claim theorems. -/

unseal Rat.add Rat.sub Rat.mul Rat.inv in
/-- C1: parse_difficulty maps "soft 7A" to 0.57 and the unrecognized
"moonboard purple" to the 0.15 fallback, as claimed; but it maps "V5-V7"
to 0.45 (the V5 value alone) instead of the claimed average 0.525, because
the anchored V-grade match consumes the V5 prefix and returns before the
range branch (whose own comment cites "V3-V5") can run. -/
theorem parse_difficulty_eval :
    parse_difficulty "soft 7A" = 57/100 ∧
    parse_difficulty "moonboard purple" = 3/20 ∧
    parse_difficulty "V5-V7" = 9/20 ∧
    parse_difficulty "V5-V7" ≠ 21/40 := by
  refine ⟨by decide, by decide, by decide, by decide⟩

/-- C7: every sequence of fewer than 3 holds gets the fixed penalty -1000
from the fitness function, for every style record and every difficulty;
all other fitness terms are skipped. -/
theorem fitness_short (b : Board) (route : List ℕ) (style : StyleParams)
    (difficulty : ℚ) (h : route.length < 3) :
    fitness b route style difficulty = -1000 := by
  rw [fitness, if_pos h]

/-- Witness for fitness_short at a concrete short route. -/
theorem fitness_short_witness :
    fitness bd3 [0, 1] styleC (2/5) = -1000 :=
  fitness_short bd3 [0, 1] styleC (2/5) (by decide)

unseal Rat.add Rat.sub Rat.mul Rat.inv in
/-- C8: the Route built by _to_route_object takes the first two ids of the
sequence as start_holds (the whole sequence when shorter than two) and the
last id in sequence order as top_hold; on the concrete board bd3 the
sequence [3, 0] witnesses that this last id need not be the highest hold. -/
theorem to_route_object_spec (b : Board) (seq : List ℕ) :
    (to_route_object b seq).start_holds = seq.take 2 ∧
    (to_route_object b seq).top_hold = seq.getLast? ∧
    ((to_route_object bd3 [3, 0]).top_hold = some 0 ∧
      (getHold bd3 0).y < (getHold bd3 3).y ∧
      3 ∈ (to_route_object bd3 [3, 0]).holds) := by
  refine ⟨?_, rfl, by decide, by decide, by decide⟩
  by_cases h : 2 ≤ seq.length
  · simp [to_route_object, h]
  · simp [to_route_object, h, List.take_of_length_le (by omega : seq.length ≤ 2)]

/-- C9: on the two-hold Route over board bd2, with holds at (0,0) and
(0,1), both metrics equal 1; and every single-hold Route has both metrics
equal to 0, whatever its board and designations. -/
theorem route_metrics_spec :
    total_move_distance routeC9 = 1 ∧ avg_move_distance routeC9 = 1 ∧
    ∀ (b : Board) (i : ℕ) (s : List ℕ) (t : Option ℕ),
      total_move_distance ⟨[i], s, t, b⟩ = 0 ∧ avg_move_distance ⟨[i], s, t, b⟩ = 0 := by
  have g0 : getHold bd2 0 = ⟨0, 0, 0, "generic", 1/2⟩ := rfl
  have g1 : getHold bd2 1 = ⟨1, 0, 1, "generic", 1/2⟩ := rfl
  have he : euclidR (getHold bd2 0) (getHold bd2 1) = 1 := by
    rw [g0, g1, euclidR]
    have hq : (((0:ℚ) - 0) ^ 2 + ((0:ℚ) - 1) ^ 2) = 1 := by norm_num
    dsimp only
    rw [hq]
    simp [Real.sqrt_one]
  have htot : total_move_distance routeC9 = 1 := by
    rw [total_move_distance, if_neg (by decide)]
    simp only [routeC9]
    simp [he]
  refine ⟨htot, ?_, ?_⟩
  · rw [avg_move_distance, if_neg (by decide), htot]
    norm_num [routeC9]
  · intro b i s t
    constructor
    · rw [total_move_distance, if_pos]
      exact Or.inr (by simp)
    · rw [avg_move_distance, if_pos]
      simp

/-- C2 counterexample: a sequence of length 1 (hence of length at least 1)
on which _mutate with the insert operation drawn propagates an error (the
randint range 1..0 is empty) instead of returning the sequence. -/
theorem mutate_error_on_singleton :
    1 ≤ ([0] : List ℕ).length ∧ mutate bd3 [0] 10 MutKind.insert 0 0 = none := by
  exact ⟨by decide, by decide⟩

/-- Support value of random.randint 1 hi for a nonempty range. -/
lemma randint_one (hi r : ℕ) (h : 1 ≤ hi) : randint 1 hi r = some (1 + r % hi) := by
  rw [randint, if_pos h]
  have : hi - 1 + 1 = hi := by omega
  rw [this]

/-- C2 amended: for every input sequence of length at least 2 and every
target length, _mutate returns a sequence without error; and whenever the
drawn operation's applicability guard fails, or its candidate list is
empty, the input sequence is returned unmodified. -/
theorem mutate_no_error (b : Board) (route : List ℕ) (t : ℤ) (k : MutKind)
    (r1 r2 : ℕ) (h : 2 ≤ route.length) :
    (∃ out, mutate b route t k r1 r2 = some out) ∧
    (mutGuard k route t = false → mutate b route t k r1 r2 = some route) ∧
    (k = MutKind.replace → 2 < route.length →
      replaceCands b route (1 + r1 % (route.length - 1)) = [] →
      mutate b route t k r1 r2 = some route) ∧
    (k = MutKind.insert → (route.length : ℤ) < t + 3 →
      insertCands b route (1 + r1 % (route.length - 1)) = [] →
      mutate b route t k r1 r2 = some route) := by
  have hr : randint 1 (route.length - 1) r1 = some (1 + r1 % (route.length - 1)) :=
    randint_one _ _ (by omega)
  cases k with
  | replace =>
    by_cases hg : 2 < route.length
    · refine ⟨?_, ?_, ?_, ?_⟩
      · by_cases hc : (replaceCands b route (1 + r1 % (route.length - 1))).isEmpty
        · exact ⟨route, by rw [mutate, if_pos hg, hr]; simp [hc]⟩
        · refine ⟨route.set (1 + r1 % (route.length - 1))
              (pyChoice (replaceCands b route (1 + r1 % (route.length - 1))) r2), ?_⟩
          rw [mutate, if_pos hg, hr]; simp [hc]
      · intro hgf; exact absurd hgf (by simp [mutGuard, hg])
      · intro _ _ hc
        rw [mutate, if_pos hg, hr]; simp [hc]
      · intro hk; cases hk
    · have hm : mutate b route t MutKind.replace r1 r2 = some route := by
        rw [mutate, if_neg hg]
      refine ⟨⟨route, hm⟩, ?_, ?_, ?_⟩
      · intro _; exact hm
      · intro _ hg2 _; exact absurd hg2 hg
      · intro hk; cases hk
  | insert =>
    by_cases hg : (route.length : ℤ) < t + 3
    · refine ⟨?_, ?_, ?_, ?_⟩
      · by_cases hc : (insertCands b route (1 + r1 % (route.length - 1))).isEmpty
        · exact ⟨route, by rw [mutate, if_pos hg, hr]; simp [hc]⟩
        · refine ⟨route.insertIdx (1 + r1 % (route.length - 1))
              (pyChoice (insertCands b route (1 + r1 % (route.length - 1))) r2), ?_⟩
          rw [mutate, if_pos hg, hr]; simp [hc]
      · intro hgf; exact absurd hgf (by simp [mutGuard, hg])
      · intro hk; cases hk
      · intro _ _ hc
        rw [mutate, if_pos hg, hr]; simp [hc]
    · have hm : mutate b route t MutKind.insert r1 r2 = some route := by
        rw [mutate, if_neg hg]
      refine ⟨⟨route, hm⟩, ?_, ?_, ?_⟩
      · intro _; exact hm
      · intro hk; cases hk
      · intro _ hg2 _; exact absurd hg2 hg
  | remove =>
    by_cases hg : 3 < route.length
    · have hr2 : randint 1 (route.length - 2) r1 = some (1 + r1 % (route.length - 2)) :=
        randint_one _ _ (by omega)
      refine ⟨⟨route.eraseIdx (1 + r1 % (route.length - 2)), ?_⟩, ?_, ?_, ?_⟩
      · rw [mutate, if_pos hg, hr2]
      · intro hgf; exact absurd hgf (by simp [mutGuard, hg])
      · intro hk; cases hk
      · intro hk; cases hk
    · have hm : mutate b route t MutKind.remove r1 r2 = some route := by
        rw [mutate, if_neg hg]
      refine ⟨⟨route, hm⟩, ?_, ?_, ?_⟩
      · intro _; exact hm
      · intro hk; cases hk
      · intro hk; cases hk
  | swap =>
    by_cases hg : 3 < route.length
    · have hr2 : randint 1 (route.length - 2) r1 = some (1 + r1 % (route.length - 2)) :=
        randint_one _ _ (by omega)
      refine ⟨⟨swapAdj route (1 + r1 % (route.length - 2)), ?_⟩, ?_, ?_, ?_⟩
      · rw [mutate, if_pos hg, hr2]
      · intro hgf; exact absurd hgf (by simp [mutGuard, hg])
      · intro hk; cases hk
      · intro hk; cases hk
    · have hm : mutate b route t MutKind.swap r1 r2 = some route := by
        rw [mutate, if_neg hg]
      refine ⟨⟨route, hm⟩, ?_, ?_, ?_⟩
      · intro _; exact hm
      · intro hk; cases hk
      · intro hk; cases hk

unseal Rat.add Rat.sub Rat.mul Rat.inv in
/-- Witness for mutate_no_error at a concrete length-2 route. -/
theorem mutate_no_error_witness :
    (∃ out, mutate bd3 [0, 1] 10 MutKind.insert 0 0 = some out) ∧
    (mutGuard MutKind.insert [0, 1] 10 = false →
      mutate bd3 [0, 1] 10 MutKind.insert 0 0 = some [0, 1]) ∧
    (MutKind.insert = MutKind.replace → 2 < ([0, 1] : List ℕ).length →
      replaceCands bd3 [0, 1] (1 + 0 % (([0, 1] : List ℕ).length - 1)) = [] →
      mutate bd3 [0, 1] 10 MutKind.insert 0 0 = some [0, 1]) ∧
    (MutKind.insert = MutKind.insert → (([0, 1] : List ℕ).length : ℤ) < 10 + 3 →
      insertCands bd3 [0, 1] (1 + 0 % (([0, 1] : List ℕ).length - 1)) = [] →
      mutate bd3 [0, 1] 10 MutKind.insert 0 0 = some [0, 1]) :=
  mutate_no_error bd3 [0, 1] 10 MutKind.insert 0 0 (by decide)

/-- Length bound of the crossover append loop, given room below the cap. -/
lemma crossExtend_length (cap : ℕ) :
    ∀ (t child : List ℕ), child.length < cap →
      (crossExtend cap child t).length ≤ cap := by
  intro t
  induction t with
  | nil => intro child hlt; rw [crossExtend]; omega
  | cons x xs ih =>
    intro child hlt
    rw [crossExtend]
    split_ifs with h1 h2
    · exact ih child hlt
    · simp only [List.length_append, List.length_cons, List.length_nil] at h2 ⊢
      omega
    · exact ih (child ++ [x]) (by simp at h2 ⊢; omega)

/-- C6: crossover returns a copy of parent1 when either parent has fewer
than 2 holds; otherwise the cut point 1 + r % (min - 1) lies in
[1, min - 1], the child is parent1's prefix up to the cut extended with
parent2's ids in order skipping duplicates; and in all cases the child is
no longer than the longer parent. -/
theorem crossover_spec (p1 p2 : List ℕ) (r : ℕ) :
    (p1.length < 2 ∨ p2.length < 2 → crossover p1 p2 r = p1) ∧
    (2 ≤ p1.length → 2 ≤ p2.length →
      1 ≤ 1 + r % (min p1.length p2.length - 1) ∧
      1 + r % (min p1.length p2.length - 1) ≤ min p1.length p2.length - 1 ∧
      crossover p1 p2 r =
        crossExtend (max p1.length p2.length)
          (p1.take (1 + r % (min p1.length p2.length - 1))) p2) ∧
    (crossover p1 p2 r).length ≤ max p1.length p2.length := by
  refine ⟨?_, ?_, ?_⟩
  · intro h; rw [crossover, if_pos h]
  · intro h1 h2
    have hmin : 2 ≤ min p1.length p2.length := le_min h1 h2
    have hmod : r % (min p1.length p2.length - 1) < min p1.length p2.length - 1 :=
      Nat.mod_lt _ (by omega)
    refine ⟨by omega, by omega, ?_⟩
    rw [crossover, if_neg (by omega)]
  · by_cases h : p1.length < 2 ∨ p2.length < 2
    · rw [crossover, if_pos h]; exact le_max_left _ _
    · rw [crossover, if_neg h]
      have h1 : 2 ≤ p1.length := by omega
      have h2 : 2 ≤ p2.length := by omega
      have hmod : r % (min p1.length p2.length - 1) < min p1.length p2.length - 1 :=
        Nat.mod_lt _ (by omega)
      apply crossExtend_length
      have : (p1.take (1 + r % (min p1.length p2.length - 1))).length =
          min (1 + r % (min p1.length p2.length - 1)) p1.length := by
        simp [List.length_take]
      omega

/-- Witness for crossover_spec: the degenerate copy and the cut-and-extend
shape at concrete parents. -/
theorem crossover_spec_witness :
    crossover [9] [3, 4] 5 = [9] ∧
    crossover [0, 1, 2] [3, 4] 0 =
      crossExtend 3 ([0, 1, 2].take 1) [3, 4] :=
  ⟨(crossover_spec [9] [3, 4] 5).1 (by decide),
    ((crossover_spec [0, 1, 2] [3, 4] 0).2.1 (by decide) (by decide)).2.2⟩

/-- Empty bottom band from the absence of low holds. -/
lemma bottomHolds_nil (b : Board) (h : ∀ hd ∈ b.holds, ¬ hd.y < 1/5) :
    bottomHolds b = [] := by
  rw [bottomHolds]
  have : b.holds.filter (fun hd => hd.y < 1/5) = [] := by
    rw [List.filter_eq_nil_iff]
    intro a ha
    simpa using h a ha
  rw [this]
  rfl

/-- The whole seeding loop aborts as soon as one constructor call fails. -/
lemma seedAux_none (b : Board) (num_moves : ℕ) (rands : ℕ → ℕ × (ℕ → ℕ))
    (hcr : ∀ r0 rs, create_random_route b num_moves r0 rs = none) :
    ∀ n i, n ≠ 0 → seedAux b num_moves rands n i = none := by
  intro n i hn
  cases n with
  | zero => exact absurd rfl hn
  | succ m => rw [seedAux, hcr]

/-- C4: on a Board with no hold below y = 0.2 the Route Constructor fails
(none, the IndexError of choosing from the empty bottom band) for every
target length and every random draw, and generate_route surfaces the same
failure to its caller for every difficulty, style and randomness. -/
theorem seeding_failure (b : Board) (h : ∀ hd ∈ b.holds, ¬ hd.y < 1/5) :
    (∀ n r0 rs, create_random_route b n r0 rs = none) ∧
    (∀ d style seedRands bredPops,
      generate_route b d style seedRands bredPops = none) := by
  have hb : bottomHolds b = [] := bottomHolds_nil b h
  have hcr : ∀ n r0 rs, create_random_route b n r0 rs = none := by
    intro n r0 rs
    rw [create_random_route]
    simp [hb]
  refine ⟨hcr, ?_⟩
  intro d style seedRands bredPops
  have hseed : seedPopulation b (moves_from_difficulty d).toNat seedRands = none := by
    rw [seedPopulation]
    exact seedAux_none b _ seedRands (fun r0 rs => hcr _ r0 rs) population_size 0
      (by rw [population_size]; omega)
  rw [generate_route, hseed]

unseal Rat.add Rat.sub Rat.mul Rat.inv in
/-- Witness for seeding_failure on the concrete board bdNB whose only hold
sits at y = 1/2. -/
theorem seeding_failure_witness :
    create_random_route bdNB 3 0 (fun _ => 0) = none ∧
    generate_route bdNB (2/5) styleC (fun _ => (0, fun _ => 0)) [] = none :=
  ⟨(seeding_failure bdNB (by decide)).1 3 0 (fun _ => 0),
    (seeding_failure bdNB (by decide)).2 (2/5) styleC (fun _ => (0, fun _ => 0)) []⟩

/-- One evaluation step never decreases the tracked best fitness, and it
either leaves the state untouched or strictly increases the best fitness. -/
lemma evalStep_le (b : Board) (style : StyleParams) (difficulty : ℚ)
    (st : Option (List ℕ) × WithBot ℝ) (pop : List (List ℕ)) :
    st.2 ≤ (evalStep b style difficulty st pop).2 ∧
    (evalStep b style difficulty st pop = st ∨
      st.2 < (evalStep b style difficulty st pop).2) := by
  rw [evalStep]
  rcases sortDesc (pop.map fun r => (r, fitness b r style difficulty)) with _ | ⟨top, rest⟩
  · exact ⟨le_refl _, Or.inl rfl⟩
  · dsimp only
    by_cases hlt : st.2 < (top.2 : WithBot ℝ)
    · rw [if_pos hlt]
      exact ⟨le_of_lt hlt, Or.inr hlt⟩
    · rw [if_neg hlt]
      exact ⟨le_refl _, Or.inl rfl⟩

/-- C3: appending one more generation to the Evolution Driver's loop never
decreases the tracked best-ever fitness (so under any fixed seed the value
is non-decreasing generation by generation), the state changes only by a
strict fitness improvement, and generate_route builds its output Route from
the tracked best-ever sequence of the whole run. -/
theorem best_tracking (b : Board) (style : StyleParams) (difficulty : ℚ)
    (pops : List (List (List ℕ))) (p : List (List ℕ))
    (seedRands : ℕ → ℕ × (ℕ → ℕ)) (bredPops : List (List (List ℕ))) :
    (runGens b style difficulty pops).2 ≤
      (runGens b style difficulty (pops ++ [p])).2 ∧
    (runGens b style difficulty (pops ++ [p]) = runGens b style difficulty pops ∨
      (runGens b style difficulty pops).2 <
        (runGens b style difficulty (pops ++ [p])).2) ∧
    generate_route b difficulty style seedRands bredPops =
      (seedPopulation b (moves_from_difficulty difficulty).toNat seedRands).bind
        (fun pop0 => (runGens b style difficulty (pop0 :: bredPops)).1.map
          (to_route_object b)) := by
  have hstep : runGens b style difficulty (pops ++ [p]) =
      evalStep b style difficulty (runGens b style difficulty pops) p := by
    rw [runGens, runGens, List.foldl_concat]
  have hle := evalStep_le b style difficulty (runGens b style difficulty pops) p
  refine ⟨by rw [hstep]; exact hle.1, by rw [hstep]; exact hle.2, ?_⟩
  rcases hseed : seedPopulation b (moves_from_difficulty difficulty).toNat seedRands
    with _ | pop0
  · rw [generate_route, hseed]; rfl
  · rw [generate_route, hseed]; rfl

/-- An id drawn from a board filter whose first conjunct excludes the ids of
the route lies on the board and outside the route. -/
lemma filtered_ids_spec {b : Board} {route : List ℕ} {q : Hold → Bool} {x : ℕ}
    (hx : x ∈ (b.holds.filter
      (fun h => decide (h.id ∉ route) && q h)).map (fun h => h.id)) :
    x ∈ boardIds b ∧ x ∉ route := by
  obtain ⟨hd, hmem, rfl⟩ := List.mem_map.mp hx
  have h1 := (List.mem_filter.mp hmem).1
  have h2 := (List.mem_filter.mp hmem).2
  simp only [Bool.and_eq_true, decide_eq_true_eq] at h2
  refine ⟨?_, h2.1⟩
  rw [boardIds]
  exact List.mem_map.mpr ⟨hd, h1, rfl⟩

/-- random.choice picks an element of a nonempty list. -/
lemma pyChoice_mem (l : List ℕ) (r : ℕ) (h : l ≠ []) : pyChoice l r ∈ l := by
  rw [pyChoice]
  have hlen : 0 < l.length := List.length_pos.mpr h
  rw [List.getD_eq_getElem l 0 (Nat.mod_lt r hlen)]
  exact List.getElem_mem _

/-- Ids of the constructor step candidates are board ids outside the route. -/
lemma stepCands_spec {b : Board} {route : List ℕ} {cur x : ℕ}
    (hx : x ∈ stepCands b route cur) : x ∈ boardIds b ∧ x ∉ route := by
  dsimp only [stepCands] at hx
  exact filtered_ids_spec hx

/-- Ids of the replace candidates are board ids outside the route. -/
lemma replaceCands_spec {b : Board} {route : List ℕ} {idx x : ℕ}
    (hx : x ∈ replaceCands b route idx) : x ∈ boardIds b ∧ x ∉ route := by
  dsimp only [replaceCands] at hx
  exact filtered_ids_spec hx

/-- Ids of the insert candidates are board ids outside the route. -/
lemma insertCands_spec {b : Board} {route : List ℕ} {idx x : ℕ}
    (hx : x ∈ insertCands b route idx) : x ∈ boardIds b ∧ x ∉ route := by
  dsimp only [insertCands] at hx
  exact filtered_ids_spec hx

/-- Bottom-band ids are board ids. -/
lemma bottomHolds_sub (b : Board) : ∀ x ∈ bottomHolds b, x ∈ boardIds b := by
  intro x hx
  rw [bottomHolds] at hx
  obtain ⟨hd, hm, rfl⟩ := List.mem_map.mp hx
  rw [boardIds]
  exact List.mem_map.mpr ⟨hd, (List.mem_filter.mp hm).1, rfl⟩

/-- Appending a fresh element keeps a list duplicate-free. -/
lemma nodup_append_singleton {l : List ℕ} {x : ℕ} (h : l.Nodup) (hx : x ∉ l) :
    (l ++ [x]).Nodup := by
  refine List.nodup_append.mpr ⟨h, List.nodup_singleton _, ?_⟩
  intro a ha hb
  rw [List.mem_singleton] at hb
  subst hb
  exact hx ha

/-- Setting a position to a fresh value keeps a list duplicate-free. -/
lemma nodup_set : ∀ (l : List ℕ) (i c : ℕ), c ∉ l → l.Nodup → (l.set i c).Nodup := by
  intro l
  induction l with
  | nil => intro i c _ _; cases i <;> simp
  | cons a t ih =>
    intro i c hc hnd
    rw [List.nodup_cons] at hnd
    cases i with
    | zero =>
      rw [List.set_cons_zero]
      exact List.nodup_cons.mpr ⟨fun h => hc (List.mem_cons_of_mem a h), hnd.2⟩
    | succ n =>
      rw [List.set_cons_succ, List.nodup_cons]
      refine ⟨?_, ih n c (fun h => hc (List.mem_cons_of_mem a h)) hnd.2⟩
      intro hmem
      rcases List.mem_or_eq_of_mem_set hmem with h | h
      · exact hnd.1 h
      · exact hc (h ▸ List.mem_cons_self a t)

/-- Membership after insertion, with no constraint on the index. -/
lemma mem_insertIdx_weak :
    ∀ (n : ℕ) (l : List ℕ) (c x : ℕ), x ∈ l.insertIdx n c → x = c ∨ x ∈ l := by
  intro n
  induction n with
  | zero =>
    intro l c x hx
    rw [List.insertIdx_zero] at hx
    exact List.mem_cons.mp hx
  | succ m ih =>
    intro l c x hx
    cases l with
    | nil =>
      rw [List.insertIdx_succ_nil] at hx
      exact absurd hx (List.not_mem_nil x)
    | cons a t =>
      rw [List.insertIdx_succ_cons] at hx
      rcases List.mem_cons.mp hx with h | h
      · exact Or.inr (h ▸ List.mem_cons_self a t)
      · rcases ih t c x h with h2 | h2
        · exact Or.inl h2
        · exact Or.inr (List.mem_cons_of_mem a h2)

/-- Inserting a fresh value keeps a list duplicate-free. -/
lemma nodup_insertIdx :
    ∀ (n : ℕ) (l : List ℕ) (c : ℕ), c ∉ l → l.Nodup → (l.insertIdx n c).Nodup := by
  intro n
  induction n with
  | zero =>
    intro l c hc hnd
    rw [List.insertIdx_zero]
    exact List.nodup_cons.mpr ⟨hc, hnd⟩
  | succ m ih =>
    intro l c hc hnd
    cases l with
    | nil => rw [List.insertIdx_succ_nil]; exact hnd
    | cons a t =>
      rw [List.insertIdx_succ_cons]
      rw [List.nodup_cons] at hnd ⊢
      refine ⟨?_, ih t c (fun h => hc (List.mem_cons_of_mem a h)) hnd.2⟩
      intro hmem
      rcases mem_insertIdx_weak m t c a hmem with h | h
      · exact hc (h ▸ List.mem_cons_self a t)
      · exact hnd.1 h

/-- The adjacent swap of _mutate permutes the list. -/
lemma swapAdj_perm : ∀ (l : List ℕ) (idx : ℕ), idx + 1 < l.length →
    (swapAdj l idx).Perm l := by
  intro l
  induction l with
  | nil => intro idx h; simp at h
  | cons a t ih =>
    intro idx h
    cases idx with
    | zero =>
      cases t with
      | nil => simp at h
      | cons a2 t2 =>
        have hs : swapAdj (a :: a2 :: t2) 0 = a2 :: a :: t2 := rfl
        rw [hs]
        exact List.Perm.swap a a2 t2
    | succ n =>
      have hstep : swapAdj (a :: t) (n + 1) = a :: swapAdj t n := by
        rw [swapAdj, swapAdj]
        simp [List.set_cons_succ, List.getD_cons_succ]
      rw [hstep]
      have hlen : n + 1 < t.length := by
        simp only [List.length_cons] at h
        omega
      exact List.Perm.cons a (ih n hlen)

/-- Shape of every successful _mutate result: either the unmodified input,
or one of the four local edits at an internal index. -/
lemma mutate_cases (b : Board) (route : List ℕ) (t : ℤ) (k : MutKind)
    (r1 r2 : ℕ) (out : List ℕ) (hm : mutate b route t k r1 r2 = some out) :
    out = route ∨
    (∃ idx c, 0 < idx ∧ c ∈ replaceCands b route idx ∧ out = route.set idx c) ∨
    (∃ idx c, 0 < idx ∧ c ∈ insertCands b route idx ∧ out = route.insertIdx idx c) ∨
    (∃ idx, 0 < idx ∧ idx + 1 < route.length ∧ out = route.eraseIdx idx) ∨
    (∃ idx, 0 < idx ∧ idx + 1 < route.length ∧ out = swapAdj route idx) := by
  cases k with
  | replace =>
    by_cases hg : 2 < route.length
    · have hr : randint 1 (route.length - 1) r1 =
          some (1 + r1 % (route.length - 1)) := randint_one _ _ (by omega)
      rw [mutate, if_pos hg, hr] at hm
      by_cases hc : (replaceCands b route (1 + r1 % (route.length - 1))).isEmpty
      · simp only [hc, if_pos] at hm
        exact Or.inl (Option.some.inj hm).symm
      · simp only [hc] at hm
        rw [if_neg (by simp [hc])] at hm
        refine Or.inr (Or.inl ⟨1 + r1 % (route.length - 1),
          pyChoice (replaceCands b route (1 + r1 % (route.length - 1))) r2,
          by omega, ?_, (Option.some.inj hm).symm⟩)
        exact pyChoice_mem _ _ (by simpa [List.isEmpty_iff] using hc)
    · rw [mutate, if_neg hg] at hm
      exact Or.inl (Option.some.inj hm).symm
  | insert =>
    by_cases hg : (route.length : ℤ) < t + 3
    · rw [mutate, if_pos hg] at hm
      by_cases hlen : 2 ≤ route.length
      · have hr : randint 1 (route.length - 1) r1 =
            some (1 + r1 % (route.length - 1)) := randint_one _ _ (by omega)
        rw [hr] at hm
        by_cases hc : (insertCands b route (1 + r1 % (route.length - 1))).isEmpty
        · simp only [hc, if_pos] at hm
          exact Or.inl (Option.some.inj hm).symm
        · simp only [hc] at hm
          rw [if_neg (by simp [hc])] at hm
          refine Or.inr (Or.inr (Or.inl ⟨1 + r1 % (route.length - 1),
            pyChoice (insertCands b route (1 + r1 % (route.length - 1))) r2,
            by omega, ?_, (Option.some.inj hm).symm⟩))
          exact pyChoice_mem _ _ (by simpa [List.isEmpty_iff] using hc)
      · rw [randint, if_neg (by omega)] at hm
        exact absurd hm (by simp)
    · rw [mutate, if_neg hg] at hm
      exact Or.inl (Option.some.inj hm).symm
  | remove =>
    by_cases hg : 3 < route.length
    · have hr : randint 1 (route.length - 2) r1 =
          some (1 + r1 % (route.length - 2)) := randint_one _ _ (by omega)
      rw [mutate, if_pos hg, hr] at hm
      have hmod : r1 % (route.length - 2) < route.length - 2 :=
        Nat.mod_lt _ (by omega)
      exact Or.inr (Or.inr (Or.inr (Or.inl ⟨1 + r1 % (route.length - 2),
        by omega, by omega, (Option.some.inj hm).symm⟩)))
    · rw [mutate, if_neg hg] at hm
      exact Or.inl (Option.some.inj hm).symm
  | swap =>
    by_cases hg : 3 < route.length
    · have hr : randint 1 (route.length - 2) r1 =
          some (1 + r1 % (route.length - 2)) := randint_one _ _ (by omega)
      rw [mutate, if_pos hg, hr] at hm
      have hmod : r1 % (route.length - 2) < route.length - 2 :=
        Nat.mod_lt _ (by omega)
      exact Or.inr (Or.inr (Or.inr (Or.inr ⟨1 + r1 % (route.length - 2),
        by omega, by omega, (Option.some.inj hm).symm⟩)))
    · rw [mutate, if_neg hg] at hm
      exact Or.inl (Option.some.inj hm).symm

/-- The extension loop of the constructor preserves the no-duplicates and
on-board invariants of its accumulator. -/
lemma buildSteps_inv (b : Board) (rs : ℕ → ℕ) :
    ∀ (fuel step : ℕ) (route : List ℕ) (cur : ℕ),
      route.Nodup → (∀ x ∈ route, x ∈ boardIds b) →
      (buildSteps b rs fuel step route cur).Nodup ∧
        ∀ x ∈ buildSteps b rs fuel step route cur, x ∈ boardIds b := by
  intro fuel
  induction fuel with
  | zero => intro step route cur h1 h2; rw [buildSteps]; exact ⟨h1, h2⟩
  | succ n ih =>
    intro step route cur h1 h2
    rw [buildSteps]
    dsimp only
    by_cases hc : (stepCands b route cur).isEmpty
    · rw [if_pos hc]; exact ⟨h1, h2⟩
    · rw [if_neg hc]
      have hnx : pyChoice (stepCands b route cur) (rs step) ∈ stepCands b route cur :=
        pyChoice_mem _ _ (by simpa [List.isEmpty_iff] using hc)
      have hspec := stepCands_spec hnx
      apply ih
      · exact nodup_append_singleton h1 hspec.2
      · intro x hx
        rcases List.mem_append.mp hx with h | h
        · exact h2 x h
        · rw [List.mem_singleton] at h
          subst h
          exact hspec.1

/-- The crossover append loop preserves freedom from duplicates. -/
lemma crossExtend_nodup (cap : ℕ) :
    ∀ (t child : List ℕ), child.Nodup → (crossExtend cap child t).Nodup := by
  intro t
  induction t with
  | nil => intro child h; rw [crossExtend]; exact h
  | cons x xs ih =>
    intro child h
    rw [crossExtend]
    split_ifs with h1 h2
    · exact ih child h
    · exact nodup_append_singleton h h1
    · exact ih (child ++ [x]) (nodup_append_singleton h h1)

/-- Every id of the crossover append loop's output comes from the child or
from the appended parent. -/
lemma crossExtend_subset (cap : ℕ) :
    ∀ (t child : List ℕ) (x : ℕ), x ∈ crossExtend cap child t →
      x ∈ child ∨ x ∈ t := by
  intro t
  induction t with
  | nil => intro child x hx; rw [crossExtend] at hx; exact Or.inl hx
  | cons y ys ih =>
    intro child x hx
    rw [crossExtend] at hx
    split_ifs at hx with h1 h2
    · rcases ih child x hx with h | h
      · exact Or.inl h
      · exact Or.inr (List.mem_cons_of_mem y h)
    · rcases List.mem_append.mp hx with h | h
      · exact Or.inl h
      · rw [List.mem_singleton] at h
        exact Or.inr (h ▸ List.mem_cons_self y ys)
    · rcases ih (child ++ [y]) x hx with h | h
      · rcases List.mem_append.mp h with h3 | h3
        · exact Or.inl h3
        · rw [List.mem_singleton] at h3
          exact Or.inr (h3 ▸ List.mem_cons_self y ys)
      · exact Or.inr (List.mem_cons_of_mem y h)

/-- C5: candidate routes carry no duplicate ids and only board ids — the
Route Constructor establishes the invariant, and the Crossover and Mutation
operators preserve it for inputs that satisfy it. -/
theorem candidate_invariants (b : Board) :
    (∀ n r0 rs route, create_random_route b n r0 rs = some route →
      route.Nodup ∧ ∀ x ∈ route, x ∈ boardIds b) ∧
    (∀ p1 p2 r, p1.Nodup → p2.Nodup →
      (∀ x ∈ p1, x ∈ boardIds b) → (∀ x ∈ p2, x ∈ boardIds b) →
      (crossover p1 p2 r).Nodup ∧ ∀ x ∈ crossover p1 p2 r, x ∈ boardIds b) ∧
    (∀ route t k r1 r2 out, route.Nodup → (∀ x ∈ route, x ∈ boardIds b) →
      mutate b route t k r1 r2 = some out →
      out.Nodup ∧ ∀ x ∈ out, x ∈ boardIds b) := by
  refine ⟨?_, ?_, ?_⟩
  · intro n r0 rs route hsome
    rw [create_random_route] at hsome
    by_cases hb : (bottomHolds b).isEmpty
    · rw [if_pos hb] at hsome
      exact absurd hsome (by simp)
    · rw [if_neg hb] at hsome
      dsimp only at hsome
      have hs : pyChoice (bottomHolds b) r0 ∈ bottomHolds b :=
        pyChoice_mem _ _ (by simpa [List.isEmpty_iff] using hb)
      have hinv := buildSteps_inv b rs n 0 [pyChoice (bottomHolds b) r0]
        (pyChoice (bottomHolds b) r0) (List.nodup_singleton _)
        (by intro x hx; rw [List.mem_singleton] at hx; subst hx
            exact bottomHolds_sub b _ hs)
      have heq := Option.some.inj hsome
      rw [← heq]
      exact hinv
  · intro p1 p2 r h1 h2 hm1 hm2
    by_cases hdeg : p1.length < 2 ∨ p2.length < 2
    · rw [crossover, if_pos hdeg]; exact ⟨h1, hm1⟩
    · rw [crossover, if_neg hdeg]
      constructor
      · exact crossExtend_nodup _ _ _ (List.Nodup.sublist (List.take_sublist _ _) h1)
      · intro x hx
        rcases crossExtend_subset _ _ _ _ hx with h | h
        · exact hm1 x (List.take_subset _ _ h)
        · exact hm2 x h
  · intro route t k r1 r2 out h1 h2 hm
    rcases mutate_cases b route t k r1 r2 out hm with hcase | hcase | hcase | hcase | hcase
    · subst hcase; exact ⟨h1, h2⟩
    · obtain ⟨idx, c, _, hc, rfl⟩ := hcase
      have hspec := replaceCands_spec hc
      constructor
      · exact nodup_set route idx c hspec.2 h1
      · intro x hx
        rcases List.mem_or_eq_of_mem_set hx with h | h
        · exact h2 x h
        · exact h ▸ hspec.1
    · obtain ⟨idx, c, _, hc, rfl⟩ := hcase
      have hspec := insertCands_spec hc
      constructor
      · exact nodup_insertIdx idx route c hspec.2 h1
      · intro x hx
        rcases mem_insertIdx_weak idx route c x hx with h | h
        · exact h ▸ hspec.1
        · exact h2 x h
    · obtain ⟨idx, _, _, rfl⟩ := hcase
      constructor
      · exact List.Nodup.sublist (List.eraseIdx_sublist route idx) h1
      · intro x hx
        exact h2 x ((List.eraseIdx_sublist route idx).subset hx)
    · obtain ⟨idx, _, hlt, rfl⟩ := hcase
      have hp := swapAdj_perm route idx hlt
      constructor
      · exact hp.symm.nodup h1
      · intro x hx
        exact h2 x (hp.mem_iff.mp hx)

unseal Rat.add Rat.sub Rat.mul Rat.inv in
/-- Witness for candidate_invariants on a concrete constructor output. -/
theorem candidate_invariants_witness :
    ([0, 1, 2] : List ℕ).Nodup ∧ ∀ x ∈ ([0, 1, 2] : List ℕ), x ∈ boardIds bd3 :=
  (candidate_invariants bd3).1 2 0 (fun _ => 0) [0, 1, 2] (by decide)

/-- The head survives appending on the right to a nonempty list. -/
lemma head?_append_left (l1 l2 : List ℕ) (h : l1 ≠ []) :
    (l1 ++ l2).head? = l1.head? := by
  cases l1 with
  | nil => exact absurd rfl h
  | cons a t => rfl

/-- Setting an internal position leaves the head unchanged. -/
lemma head?_set_pos (l : List ℕ) (i c : ℕ) (h : 0 < i) :
    (l.set i c).head? = l.head? := by
  cases l with
  | nil => rfl
  | cons a t =>
    cases i with
    | zero => omega
    | succ n => rw [List.set_cons_succ]; rfl

/-- Inserting at an internal position leaves the head unchanged. -/
lemma head?_insertIdx_pos (l : List ℕ) (i c : ℕ) (h : 0 < i) :
    (l.insertIdx i c).head? = l.head? := by
  cases i with
  | zero => omega
  | succ n =>
    cases l with
    | nil => rw [List.insertIdx_succ_nil]
    | cons a t => rw [List.insertIdx_succ_cons]; rfl

/-- Removing an internal position leaves the head unchanged. -/
lemma head?_eraseIdx_pos (l : List ℕ) (i : ℕ) (h : 0 < i) :
    (l.eraseIdx i).head? = l.head? := by
  cases l with
  | nil => rfl
  | cons a t =>
    cases i with
    | zero => omega
    | succ n => rw [List.eraseIdx_cons_succ]; rfl

/-- Swapping two internal positions leaves the head unchanged. -/
lemma head?_swapAdj_pos (l : List ℕ) (i : ℕ) (h : 0 < i) :
    (swapAdj l i).head? = l.head? := by
  rw [swapAdj, head?_set_pos _ _ _ (by omega), head?_set_pos _ _ _ h]

/-- Taking a positive prefix preserves the head. -/
lemma head?_take_pos (l : List ℕ) (n : ℕ) (h : 0 < n) :
    (l.take n).head? = l.head? := by
  cases l with
  | nil => simp
  | cons a t =>
    cases n with
    | zero => omega
    | succ m => rw [List.take_succ_cons]; rfl

/-- The extension loop only appends, so the head of a nonempty accumulator
is preserved. -/
lemma buildSteps_head (b : Board) (rs : ℕ → ℕ) :
    ∀ (fuel step : ℕ) (route : List ℕ) (cur : ℕ), route ≠ [] →
      (buildSteps b rs fuel step route cur).head? = route.head? := by
  intro fuel
  induction fuel with
  | zero => intro step route cur _; rw [buildSteps]
  | succ n ih =>
    intro step route cur h
    rw [buildSteps]
    dsimp only
    by_cases hc : (stepCands b route cur).isEmpty
    · rw [if_pos hc]
    · rw [if_neg hc]
      rw [ih _ _ _ (by simp)]
      exact head?_append_left route _ h

/-- The crossover append loop only appends, so the head of a nonempty child
is preserved. -/
lemma crossExtend_head (cap : ℕ) :
    ∀ (t child : List ℕ), child ≠ [] →
      (crossExtend cap child t).head? = child.head? := by
  intro t
  induction t with
  | nil => intro child _; rw [crossExtend]
  | cons x xs ih =>
    intro child h
    rw [crossExtend]
    split_ifs with h1 h2
    · exact ih child h
    · exact head?_append_left child [x] h
    · rw [ih (child ++ [x]) (by simp)]
      exact head?_append_left child [x] h

/-- C10: breeding preserves the first hold — the crossover child of
non-degenerate parents starts with parent1's first id (and the degenerate
case copies parent1), every successful mutation keeps the head because all
four operations touch only indices at least 1 — and therefore every
candidate reachable in the Driver's population starts with a bottom-band
hold chosen at seeding. -/
theorem first_hold_invariant (b : Board) :
    (∀ p1 p2 r, 2 ≤ p1.length → 2 ≤ p2.length →
      (crossover p1 p2 r).head? = p1.head?) ∧
    (∀ p1 p2 r, p1.length < 2 ∨ p2.length < 2 → crossover p1 p2 r = p1) ∧
    (∀ route t k r1 r2 out, mutate b route t k r1 r2 = some out →
      out.head? = route.head?) ∧
    (∀ route, Reachable b route →
      ∃ h0, route.head? = some h0 ∧ h0 ∈ bottomHolds b) := by
  have hcross : ∀ (p1 p2 : List ℕ) (r : ℕ), 2 ≤ p1.length → 2 ≤ p2.length →
      (crossover p1 p2 r).head? = p1.head? := by
    intro p1 p2 r h1 h2
    rw [crossover, if_neg (by omega)]
    have hpt : 0 < 1 + r % (min p1.length p2.length - 1) := by omega
    have htk : p1.take (1 + r % (min p1.length p2.length - 1)) ≠ [] := by
      have : (p1.take (1 + r % (min p1.length p2.length - 1))).length =
          min (1 + r % (min p1.length p2.length - 1)) p1.length := by
        simp [List.length_take]
      intro hnil
      rw [hnil] at this
      simp at this
      omega
    rw [crossExtend_head _ _ _ htk]
    exact head?_take_pos p1 _ hpt
  have hmut : ∀ (route : List ℕ) (t : ℤ) (k : MutKind) (r1 r2 : ℕ) (out : List ℕ),
      mutate b route t k r1 r2 = some out → out.head? = route.head? := by
    intro route t k r1 r2 out hm
    rcases mutate_cases b route t k r1 r2 out hm with hc | hc | hc | hc | hc
    · rw [hc]
    · obtain ⟨idx, c, hpos, _, rfl⟩ := hc
      exact head?_set_pos route idx c hpos
    · obtain ⟨idx, c, hpos, _, rfl⟩ := hc
      exact head?_insertIdx_pos route idx c hpos
    · obtain ⟨idx, hpos, _, rfl⟩ := hc
      exact head?_eraseIdx_pos route idx hpos
    · obtain ⟨idx, hpos, _, rfl⟩ := hc
      exact head?_swapAdj_pos route idx hpos
  refine ⟨hcross, ?_, hmut, ?_⟩
  · intro p1 p2 r h
    rw [crossover, if_pos h]
  · intro route hreach
    induction hreach with
    | seed n r0 rs route hsome =>
      rw [create_random_route] at hsome
      by_cases hb : (bottomHolds b).isEmpty
      · rw [if_pos hb] at hsome
        exact absurd hsome (by simp)
      · rw [if_neg hb] at hsome
        dsimp only at hsome
        have heq := Option.some.inj hsome
        have hs : pyChoice (bottomHolds b) r0 ∈ bottomHolds b :=
          pyChoice_mem _ _ (by simpa [List.isEmpty_iff] using hb)
        refine ⟨pyChoice (bottomHolds b) r0, ?_, hs⟩
        rw [← heq, buildSteps_head b rs n 0 _ _ (by simp)]
        rfl
    | cross p1 p2 r hr1 hr2 ih1 ih2 =>
      obtain ⟨h0, hh, hb0⟩ := ih1
      by_cases hdeg : p1.length < 2 ∨ p2.length < 2
      · rw [crossover, if_pos hdeg]
        exact ⟨h0, hh, hb0⟩
      · refine ⟨h0, ?_, hb0⟩
        rw [hcross p1 p2 r (by omega) (by omega)]
        exact hh
    | mutStep route out t k r1 r2 hr hm ih =>
      obtain ⟨h0, hh, hb0⟩ := ih
      exact ⟨h0, by rw [hmut route t k r1 r2 out hm]; exact hh, hb0⟩

unseal Rat.add Rat.sub Rat.mul Rat.inv in
/-- Witness for first_hold_invariant at a concrete seeded route. -/
theorem first_hold_invariant_witness :
    ∃ h0, ([0] : List ℕ).head? = some h0 ∧ h0 ∈ bottomHolds bd3 :=
  (first_hold_invariant bd3).2.2.2 [0]
    (Reachable.seed 0 0 (fun _ => 0) [0] (by decide))
